import Mathlib

/-!
Verification development for the gtrmrs repository (Git-aware directory
scanning: shared core `git_utils.py` / `patterns.py`, and the three consumer
engines `gitmig/engine.py` (copier), `rtree/engine.py` (tree visualizer) and
`locr/engine.py` (LOC counter)).

The Python sources are shallowly embedded: the filesystem is a rose tree of
named entries, `os.walk` with top-down `dirnames` pruning becomes recursion
over that tree, and the external `git check-ignore` subprocess is an oracle
parameter (`Option ProcResult`, `none` = the call raised
`SubprocessError`/`FileNotFoundError`).  Paths use the POSIX separator "/".
-/

/-! ## String helpers (Python `os.path` / `str` operations, POSIX flavour)

Lean core's `String.split`, `String.startsWith`, ... are compiled by
well-founded recursion and do not reduce inside the kernel, so the string
operations the embedding needs are (re)implemented structurally over
character lists; each is documented with the Python operation it models. -/

/-- Python `s.startswith(pre)`. -/
def strStartsWith (s pre : String) : Bool := pre.toList.isPrefixOf s.toList

/-- Python `s.endswith(suf)`. -/
def strEndsWith (s suf : String) : Bool := suf.toList.reverse.isPrefixOf s.toList.reverse

/-- Python `s[n:]` for a character count. -/
def strDrop (s : String) (n : Nat) : String := String.mk (s.toList.drop n)

/-- Python `s[:-n]`. -/
def strDropRight (s : String) (n : Nat) : String :=
  String.mk (s.toList.take (s.toList.length - n))

/-- The whitespace stripped by Python `str.strip()` (ASCII part). -/
def isPySpace (c : Char) : Bool :=
  c = ' ' || c = '\t' || c = '\n' || c = '\r' || c = Char.ofNat 11 || c = Char.ofNat 12

/-- Python `str.strip()`. -/
def strTrim (s : String) : String :=
  String.mk (((s.toList.dropWhile isPySpace).reverse.dropWhile isPySpace).reverse)

def splitCharAux (sep : Char) : List Char → List Char → List String
  | [], acc => [String.mk acc.reverse]
  | c :: rest, acc =>
    if c = sep then String.mk acc.reverse :: splitCharAux sep rest []
    else splitCharAux sep rest (c :: acc)

/-- Python `s.split(sep)` for a single-character separator (adjacent
separators produce empty pieces; splitting the empty string gives `[""]`). -/
def splitChar (sep : Char) (s : String) : List String := splitCharAux sep s.toList []

/-- Python `sep.join(pieces)`. -/
def strJoin (sep : String) : List String → String
  | [] => ""
  | [x] => x
  | x :: xs => x ++ sep ++ strJoin sep xs

/-- Python `str.lower()` (ASCII). -/
def strToLower (s : String) : String := String.mk (s.toList.map Char.toLower)

/-- Python `str.rstrip("/")`: remove every trailing `/`. -/
def rstripSlash (s : String) : String :=
  String.mk (s.toList.reverse.dropWhile (· = '/')).reverse

/-- Python `os.path.basename`: the part after the last `/` (may be empty). -/
def osBasename (p : String) : String :=
  (splitChar '/' p).getLastD ""

/-- Join a chain of directory names and a final name with `/`; with an empty
chain this is just the name, matching `os.path.join(rel_dir, f) if rel_dir
else f` in the engines. -/
def relJoin (dirs : List String) (name : String) : String :=
  strJoin "/" (dirs ++ [name])

/-- Python `s.replace("\\", "/")` (single-character replacement). -/
def replaceBackslashes (s : String) : String :=
  String.mk (s.toList.map (fun c => if c = '\\' then '/' else c))

/-- Python `os.path.isabs` on POSIX. -/
def posixIsAbs (p : String) : Bool := strStartsWith p "/"

/-- Python `os.path.join(a, b)` on POSIX (two arguments). -/
def posixJoin (a b : String) : String :=
  if strStartsWith b "/" then b
  else if a = "" || strEndsWith a "/" then a ++ b
  else a ++ "/" ++ b

/-- Python `posixpath.normpath`: collapse `//`, `.` and inner `..`
components; leading `..` components survive. -/
def posixNormpath (path : String) : String :=
  if path = "" then "."
  else
    let initialSlashes : Nat :=
      if strStartsWith path "/" then
        if strStartsWith path "//" ∧ ¬ strStartsWith path "///" then 2 else 1
      else 0
    let comps := splitChar '/' path
    let newComps := comps.foldl (fun acc comp =>
      if comp = "" ∨ comp = "." then acc
      else if comp ≠ ".." ∨ (initialSlashes = 0 ∧ acc = []) ∨ acc.getLast? = some ".." then
        acc ++ [comp]
      else if acc ≠ [] then acc.dropLast
      else acc) []
    let res := String.mk (List.replicate initialSlashes '/') ++ strJoin "/" newComps
    if res = "" then "." else res

/-- Python `os.path.splitext(name)[1]` for a bare filename: the extension
including its dot; leading dots of the name do not start an extension. -/
def extOf (name : String) : String :=
  let rest := name.toList.dropWhile (· = '.')
  let rev := rest.reverse
  if rev.contains '.' then String.mk ('.' :: (rev.takeWhile (· ≠ '.')).reverse)
  else ""

/-- Python `str.lstrip(".")`: remove every leading dot. -/
def lstripDot (s : String) : String := String.mk (s.toList.dropWhile (· = '.'))

/-! ## `fnmatch.fnmatch` (POSIX: `normcase` is the identity)

Glob semantics of `fnmatch.translate`: `*` matches any run of characters
(including `/`), `?` any single character, `[set]` a character class with
optional leading `!` negation and `a-b` ranges; an unterminated `[` is a
literal character.  The whole pattern must match the whole name. -/

/-- Scan a character-class body up to the closing `]`; `none` if there is
no closing bracket. -/
def splitUntilRBrack : List Char → Option (List Char × List Char)
  | [] => none
  | ']' :: t => some ([], t)
  | c :: t => (splitUntilRBrack t).map (fun br => (c :: br.1, br.2))

/-- Parse the part after `[`: returns (negated, class body, rest of pattern).
A `]` directly after `[` (or after `[!`) belongs to the class body. -/
def scanClass (cs : List Char) : Option (Bool × List Char × List Char) :=
  let neg := match cs with | '!' :: _ => true | _ => false
  let cs₁ := match cs with | '!' :: t => t | _ => cs
  match cs₁ with
  | ']' :: t => (splitUntilRBrack t).map (fun br => (neg, ']' :: br.1, br.2))
  | _ => (splitUntilRBrack cs₁).map (fun br => (neg, br.1, br.2))

/-- Does a character-class body contain a character (with `a-b` ranges;
a `-` at the edges is literal)? -/
def classHas : List Char → Char → Bool
  | a :: '-' :: b :: rest, c => (a ≤ c ∧ c ≤ b) || classHas rest c
  | a :: rest, c => (a = c) || classHas rest c
  | [], _ => false

/-- One token of a compiled glob pattern. -/
inductive GlobTok where
  | star
  | anyChar
  | cls (neg : Bool) (body : List Char)
  | lit (c : Char)
deriving Repr, DecidableEq

/-- Tokenize a glob pattern.  The fuel argument (initialized to the pattern
length, which bounds the number of tokens) only makes the recursion
structural; every step consumes at least one character and exactly one unit
of fuel, so the fuel never runs out. -/
def tokenizeAux : Nat → List Char → List GlobTok
  | 0, _ => []
  | _ + 1, [] => []
  | fuel + 1, '*' :: p => .star :: tokenizeAux fuel p
  | fuel + 1, '?' :: p => .anyChar :: tokenizeAux fuel p
  | fuel + 1, '[' :: p =>
    match scanClass p with
    | some r => .cls r.1 r.2.1 :: tokenizeAux fuel r.2.2
    | none => .lit '[' :: tokenizeAux fuel p
  | fuel + 1, a :: p => .lit a :: tokenizeAux fuel p

def tokenizeGlob (pat : List Char) : List GlobTok := tokenizeAux pat.length pat

/-- Match a tokenized glob against a name; `star` matches any run of
characters, including `/` (fnmatch does not treat the separator specially). -/
def matchToks : List GlobTok → List Char → Bool
  | [], s => s.isEmpty
  | .star :: p, s => s.tails.any fun t => matchToks p t
  | .anyChar :: p, _ :: s => matchToks p s
  | .anyChar :: _, [] => false
  | .cls neg body :: p, c :: s => (classHas body c ≠ neg) && matchToks p s
  | .cls _ _ :: _, [] => false
  | .lit a :: p, c :: s => a = c && matchToks p s
  | .lit _ :: _, [] => false

/-- Python `fnmatch.fnmatch(name, pat)` on POSIX (`normcase` is the
identity there, so this is also `fnmatchcase`). -/
def fnmatch (name pat : String) : Bool :=
  matchToks (tokenizeGlob pat.toList) name.toList

example : fnmatch "debug.log" "*.log" = true := by decide
example : fnmatch "foo.egg-info" "*.egg-info" = true := by decide
example : fnmatch ".env.local" ".env.*" = true := by decide
example : fnmatch ".env" ".env.*" = false := by decide
example : fnmatch "a/b.log" "*.log" = true := by decide
example : fnmatch "x.pyc" "*.py[co]" = true := by decide
example : fnmatch "x.pyd" "*.py[co]" = false := by decide

/-! ## `patterns.py`: the static pattern catalog -/

/-- Directories to always exclude (eager pruning). -/
def EXCLUDE_DIRS : List String :=
  [".git", ".svn", ".hg",
   ".idea", ".vscode",
   "__pycache__", ".pytest_cache", ".mypy_cache", ".ruff_cache",
   "venv", ".venv", "env", ".tox", ".nox", "*.egg-info",
   "node_modules", "bower_components", ".next", ".nuxt", ".output", ".cache",
   "dist", "build", "target", "bin", "obj", "out", ".parcel-cache",
   ".DS_Store", "Thumbs.db", ".turbo"]

/-- File patterns to exclude. -/
def EXCLUDE_FILE_PATTERNS : List String :=
  ["*.log", "*.tmp", "*.temp", "*.bak", "*.swp", "*.pyc", "*.pyo",
   "*.class", "*.dll", "*.exe", "*.o", "*.so", "*.dylib"]

/-- Files/patterns to always preserve (override exclusions). -/
def PRESERVE_PATTERNS : List String := [".env", ".env.*", ".gitignore"]

/-- `gitmig/engine.py` env-file patterns for `--env` mode. -/
def ENV_PATTERNS : List String := [".env", ".env.*", "*.env"]

/-! ## Filesystem model

A scan root is a list of entries (the root directory's children).  A file
carries the metadata the engines consult: `os.path.islink`, `os.path.getsize`
and, for files that are opened (`.gitignore`, counted sources), its text
lines.  `os.walk` is embedded per engine below; as on a real POSIX
filesystem, entry names never contain the separator `/`. -/

structure FileMeta where
  isLink : Bool := false
  size : Nat := 0
  lines : List String := []
deriving Repr, DecidableEq

inductive Entry where
  | file (name : String) (meta : FileMeta)
  | dir (name : String) (children : List Entry)

/-- The `filenames` component of an `os.walk` step. -/
def filesOf (es : List Entry) : List (String × FileMeta) :=
  es.filterMap fun e => match e with | .file n m => some (n, m) | .dir _ _ => none

/-- The `dirnames` component of an `os.walk` step. -/
def dirsOf (es : List Entry) : List (String × List Entry) :=
  es.filterMap fun e => match e with | .file _ _ => none | .dir n cs => some (n, cs)

/-- `is_git_repo`: `os.path.isdir(os.path.join(path, ".git"))` at the root. -/
def is_git_repo (tree : List Entry) : Bool :=
  (dirsOf tree).any (fun d => d.1 = ".git")

/-- Content of the root `.gitignore` if it exists as a regular file
(`os.path.isfile`), else `none`. -/
def rootGitignoreLines (tree : List Entry) : Option (List String) :=
  ((filesOf tree).find? (fun f => f.1 = ".gitignore")).map (fun f => f.2.lines)

/-! ## `git_utils.py` -/

/-- Result of the `git check-ignore --stdin -z` subprocess when it returns:
exit code and raw stdout bytes (entries null-delimited).  The whole call is
an oracle parameter of the scans; `none` models `subprocess.SubprocessError`
or `FileNotFoundError` (binary missing, timeout, ...). -/
structure ProcResult where
  returncode : Int
  stdout : String
deriving Repr, DecidableEq

/-- The sanitizer in `git_check_ignore`: drop paths with null bytes or
control characters outside tab/newline. -/
def is_safe_relpath (p : String) : Bool :=
  (!p.toList.contains (Char.ofNat 0)) &&
    p.toList.all (fun c => 32 ≤ c.toNat || c = '\t' || c = '\n')

/-- `git_check_ignore(repo_path, relpaths)`: the set of relative paths git
reports as ignored.  Empty input, a failed invocation, a non-0/1 exit code
or empty stdout all yield the empty set. -/
def git_check_ignore (proc : Option ProcResult) (relpaths : List String) : List String :=
  if relpaths.isEmpty then []
  else
    let safePaths := relpaths.filter is_safe_relpath
    if safePaths.isEmpty then []
    else
      match proc with
      | none => []
      | some r =>
        if (r.returncode ≠ 0 ∧ r.returncode ≠ 1) ∨ r.stdout = "" then []
        else (splitChar (Char.ofNat 0) r.stdout).filter (· ≠ "")

/-- `compile_gitignore_patterns`: parse `.gitignore` lines into tuples
`(pattern, is_negation, is_dir_only)`; `none` models a missing file. -/
def compile_gitignore_patterns (fileLines : Option (List String)) : List (String × Bool × Bool) :=
  match fileLines with
  | none => []
  | some ls =>
    ls.filterMap fun raw =>
      let line := strTrim raw
      if line = "" || strStartsWith line "#" then none
      else
        let isNegation := strStartsWith line "!"
        let line₁ := if isNegation then strDrop line 1 else line
        let isDirOnly := strEndsWith line₁ "/"
        let line₂ := if isDirOnly then strDropRight line₁ 1 else line₁
        some (line₂, isNegation, isDirOnly)

/-- `simple_gitignore_match`: fallback matcher.  Walks the rules in file
order, keeping the last matching rule's verdict; dir-only rules are skipped
for files; each rule is matched against the basename and the full relative
path. -/
def simple_gitignore_match (relpath : String) (patterns : List (String × Bool × Bool))
    (isDir : Bool) : Bool :=
  patterns.foldl
    (fun ignored r =>
      if r.2.2 && !isDir then ignored
      else if fnmatch (osBasename relpath) r.1 || fnmatch relpath r.1 then !r.2.1
      else ignored)
    false

/-- `should_eager_prune(dirname, extra_excludes)`. -/
def should_eager_prune (dirname : String) (extraExcludes : List String) : Bool :=
  EXCLUDE_DIRS.any (fun pat => fnmatch dirname pat) ||
  extraExcludes.any (fun pat => fnmatch dirname (rstripSlash pat))

/-- A candidate produced by phase 1 of `collect_files_with_pruning` (and by
the rtree walk): the chain of directory names from the root, the entry's own
name, and whether it is a directory (rendered with a trailing separator). -/
structure Cand where
  dirs : List String
  name : String
  isDir : Bool
deriving Repr, DecidableEq

/-- The relative-path string the source code appends to `all_relpaths`. -/
def Cand.render (c : Cand) : String :=
  relJoin c.dirs c.name ++ (if c.isDir then "/" else "")

/-- The `dirnames[:] = [d for d in dirnames if not should_eager_prune(...)]`
step (skipped in raw mode). -/
def keptDirs (raw : Bool) (extra : List String) (cs : List Entry) : List (String × List Entry) :=
  if raw then dirsOf cs else (dirsOf cs).filter (fun d => !should_eager_prune d.1 extra)

/-- Phase 1 of `collect_files_with_pruning`, below the root: walk the kept
subdirectories in order.  At each visited directory (depth = number of name
components of its relative path): if a depth limit is set and reached,
nothing is collected and the walk does not descend (`dirnames.clear();
continue`); otherwise its files are collected, its kept subdirectories are
collected with a trailing separator, and the walk descends into them. -/
def collect_sub (raw : Bool) (extra : List String) (maxDepth : Int) (dirs : List String) :
    List Entry → List Cand
  | [] => []
  | .file _ _ :: rest => collect_sub raw extra maxDepth dirs rest
  | .dir n cs :: rest =>
    (if raw || !should_eager_prune n extra then
      (let dirs' := dirs ++ [n]
       if 0 ≤ maxDepth ∧ maxDepth ≤ (dirs'.length : Int) then []
       else
         (filesOf cs).map (fun f => Cand.mk dirs' f.1 false)
         ++ (keptDirs raw extra cs).map (fun d => Cand.mk dirs' d.1 true)
         ++ collect_sub raw extra maxDepth dirs' cs)
     else []) ++ collect_sub raw extra maxDepth dirs rest

/-- Phase 1 of `collect_files_with_pruning` from the root (depth 0): the
root's own files and kept directories, then the recursive walk. -/
def collect_walk (raw : Bool) (extra : List String) (maxDepth : Int) (tree : List Entry) :
    List Cand :=
  if 0 ≤ maxDepth ∧ maxDepth ≤ (0 : Int) then []
  else
    (filesOf tree).map (fun f => Cand.mk [] f.1 false)
    ++ (keptDirs raw extra tree).map (fun d => Cand.mk [] d.1 true)
    ++ collect_sub raw extra maxDepth [] tree

/-- The file list handed to `git check-ignore` in phase 2:
`[p for p in all_relpaths if not p.endswith(os.sep)]`. -/
def gitPhaseInput (tree : List Entry) (raw : Bool) (extra : List String) (maxDepth : Int) :
    List String :=
  ((collect_walk raw extra maxDepth tree).map Cand.render).filter (fun p => !strEndsWith p "/")

/-- The `elif` fallback branch of phase 2: parse the root `.gitignore` and
run the simple matcher over every candidate. -/
def fallbackIgnoredSet (tree : List Entry) (allRelpaths : List String) : List String :=
  let patterns := compile_gitignore_patterns (rootGitignoreLines tree)
  if patterns.isEmpty then []
  else allRelpaths.filter
    (fun relpath => simple_gitignore_match (rstripSlash relpath) patterns (strEndsWith relpath "/"))

/-- `collect_files_with_pruning(root, raw_mode, extra_excludes, max_depth)`
with the check-ignore subprocess as oracle: returns
`(all_relpaths, ignored_set)`. -/
def collect_files_with_pruning (tree : List Entry) (raw : Bool) (extra : List String)
    (maxDepth : Int) (proc : Option ProcResult) : List String × List String :=
  let allRelpaths := (collect_walk raw extra maxDepth tree).map Cand.render
  let ignoredSet :=
    if !raw && is_git_repo tree then git_check_ignore proc (gitPhaseInput tree raw extra maxDepth)
    else if !raw then fallbackIgnoredSet tree allRelpaths
    else []
  (allRelpaths, ignoredSet)

example :
    collect_walk false [] (-1)
      [.dir "src" [.file "a.py" {}],
       .dir "node_modules" [.dir "lib" [.file "x.js" {}]],
       .file ".env" {}, .file "debug.log" {}] =
    [Cand.mk [] ".env" false, Cand.mk [] "debug.log" false, Cand.mk [] "src" true,
     Cand.mk ["src"] "a.py" false] := by
  simp [collect_walk, collect_sub, keptDirs, filesOf, dirsOf, should_eager_prune, EXCLUDE_DIRS]
  decide

/-! ## `gitmig/engine.py`: the copier -/

/-- Constructor-time configuration of `GitMigEngine` (the fields the scan,
filter and zip logic consult).  Python truthiness: `max_size=None`/`0` and
`ext_filter=None`/`[]` behave identically, so they are modelled as `0`
resp. `[]`. -/
structure GitMigConfig where
  extraExcludes : List String := []
  includeGit : Bool := false
  maxSize : Nat := 0
  envOnly : Bool := false
  extFilter : List String := []
  rawMode : Bool := false
deriving Repr, DecidableEq

/-- `self.exclude_dirs`: the default directory excludes plus every extra
pattern with a trailing `/` (stripped); `--include-git` removes `.git`. -/
def GitMigConfig.exclude_dirs (cfg : GitMigConfig) : List String :=
  let base := EXCLUDE_DIRS ++ cfg.extraExcludes.filterMap (fun pat =>
    let p := strTrim pat
    if strEndsWith p "/" then some (rstripSlash p) else none)
  if cfg.includeGit then base.erase ".git" else base

/-- `self.exclude_files`: the default file excludes plus every extra pattern
without a trailing `/`. -/
def GitMigConfig.exclude_files (cfg : GitMigConfig) : List String :=
  EXCLUDE_FILE_PATTERNS ++ cfg.extraExcludes.filterMap (fun pat =>
    let p := strTrim pat
    if strEndsWith p "/" then none else some p)

/-- `_should_exclude_dir`: glob match or literal equality against the merged
directory excludes. -/
def should_exclude_dir (cfg : GitMigConfig) (dirname : String) : Bool :=
  cfg.exclude_dirs.any (fun pat => fnmatch dirname pat || dirname = pat)

/-- `_should_exclude_file`. -/
def should_exclude_file (cfg : GitMigConfig) (filename : String) : Bool :=
  cfg.exclude_files.any (fun pat => fnmatch filename pat)

/-- `_should_preserve`. -/
def should_preserve (filename : String) : Bool :=
  PRESERVE_PATTERNS.any (fun pat => fnmatch filename pat)

/-- `_matches_env_pattern`. -/
def matches_env_pattern (filename : String) : Bool :=
  ENV_PATTERNS.any (fun pat => fnmatch filename pat)

/-- `_matches_ext_filter`: no filter configured accepts everything;
otherwise the lower-cased, dot-stripped extension must be listed. -/
def matches_ext_filter (cfg : GitMigConfig) (filename : String) : Bool :=
  if cfg.extFilter.isEmpty then true
  else cfg.extFilter.contains (lstripDot (strToLower (extOf filename)))

/-- A file recorded during a walk: the chain of directory names from the
scan root, the filename, and the file's metadata (the engine later stats
`os.path.join(repo_path, rel_path)`, i.e. this same file, for
`islink`/`getsize`). -/
structure PathInfo where
  dirs : List String
  name : String
  meta : FileMeta
deriving Repr, DecidableEq

/-- The `rel_path` string the source code builds for this file. -/
def PathInfo.rel (i : PathInfo) : String := relJoin i.dirs i.name

/-- Phase 1 of `GitMigEngine._scan_repo` below the root: walk subdirectories
in order, eagerly dropping (before descending) every directory matching
`_should_exclude_dir`; collect each visited directory's files. -/
def gitmig_sub (cfg : GitMigConfig) (dirs : List String) : List Entry → List PathInfo
  | [] => []
  | .file _ _ :: rest => gitmig_sub cfg dirs rest
  | .dir n cs :: rest =>
    (if !should_exclude_dir cfg n then
      (filesOf cs).map (fun f => PathInfo.mk (dirs ++ [n]) f.1 f.2)
      ++ gitmig_sub cfg (dirs ++ [n]) cs
     else []) ++ gitmig_sub cfg dirs rest

/-- Phase 1 of `GitMigEngine._scan_repo` from the repo root (`all_relpaths`,
with the walk enriched by each file's directory chain and metadata). -/
def gitmig_walk (cfg : GitMigConfig) (tree : List Entry) : List PathInfo :=
  (filesOf tree).map (fun f => PathInfo.mk [] f.1 f.2) ++ gitmig_sub cfg [] tree

/-- Phase 2 of `GitMigEngine._scan_repo`: `ignored_by_git`. -/
def gitmig_ignored (cfg : GitMigConfig) (tree : List Entry) (proc : Option ProcResult) :
    List String :=
  if !cfg.rawMode && is_git_repo tree then
    git_check_ignore proc ((gitmig_walk cfg tree).map PathInfo.rel)
  else []

/-- Phase 3 of `GitMigEngine._scan_repo`: `files_to_copy`.  Skips symlinks
and oversized files; then one of three mutually exclusive modes: env-only,
extension allow-list, or the default mode which respects the ignored set and
the default file excludes unless the filename matches a preserve pattern. -/
def gitmig_files_to_copy (cfg : GitMigConfig) (tree : List Entry) (proc : Option ProcResult) :
    List (PathInfo × Nat) :=
  let ignored := gitmig_ignored cfg tree proc
  (gitmig_walk cfg tree).filterMap fun i =>
    if i.meta.isLink then none
    else if cfg.maxSize ≠ 0 ∧ i.meta.size > cfg.maxSize then none
    else if cfg.envOnly ∧ ¬ matches_env_pattern i.name then none
    else if ¬ cfg.envOnly ∧ ¬ cfg.extFilter.isEmpty ∧ ¬ matches_ext_filter cfg i.name then none
    else if ¬ cfg.envOnly ∧ cfg.extFilter.isEmpty ∧
        ignored.contains i.rel ∧ ¬ should_preserve i.name then none
    else if ¬ cfg.envOnly ∧ cfg.extFilter.isEmpty ∧
        should_exclude_file cfg i.name ∧ ¬ should_preserve i.name then none
    else some (i, i.meta.size)

/-- The `(rel_path, file_size)` pairs exactly as the source returns them. -/
def gitmig_files_to_copy_pairs (cfg : GitMigConfig) (tree : List Entry)
    (proc : Option ProcResult) : List (String × Nat) :=
  (gitmig_files_to_copy cfg tree proc).map (fun x => (x.1.rel, x.2))

/-- `GitMigEngine._zip_repo`: the archive entry names actually written.  A
path whose `normpath` starts with `..` or is absolute is skipped; otherwise
the entry name is `os.path.join(repo_name, rel_path).replace("\\", "/")`. -/
def zip_written_entries (repoName : String) (filesToCopy : List (String × Nat)) :
    List String :=
  filesToCopy.filterMap fun rp =>
    let normalized := posixNormpath rp.1
    if strStartsWith normalized ".." ∨ posixIsAbs normalized ∨ strStartsWith normalized "/" then none
    else some (replaceBackslashes (posixJoin repoName rp.1))

/-- Specification notion for archive safety: resolve an entry name's
components against a stack (empty names and `.` skipped, `..` pops);
`none` when resolution would climb above the archive root. -/
def resolveEntryPath (entry : String) : Option (List String) :=
  (splitChar '/' entry).foldl
    (fun acc c =>
      match acc with
      | none => none
      | some stk =>
        if c = "" ∨ c = "." then some stk
        else if c = ".." then (match stk with | [] => none | _ => some stk.dropLast)
        else some (stk ++ [c]))
    (some [])

example : posixNormpath "a/../b//./c" = "b/c" := by decide
example : posixNormpath "../x" = "../x" := by decide
example : posixNormpath "a\\..\\..\\..\\b" = "a\\..\\..\\..\\b" := by decide
example : resolveEntryPath "repo/a/b" = some ["repo", "a", "b"] := by decide
example : resolveEntryPath "repo/a/../../../b" = none := by decide

/-! ## `rtree/engine.py`: the tree visualizer -/

def distinctAux : List String → List String → List String
  | [], _ => []
  | x :: xs, seen =>
    if seen.contains x then distinctAux xs seen else x :: distinctAux xs (x :: seen)

/-- Keep-first-occurrence deduplication, modelling Python's `set(...)`
conversions (the engines use the sets only through membership). -/
def distinctList (l : List String) : List String := distinctAux l []

/-- Is a subdirectory descended into by `RepoTreeVisualizer._collect_candidates`?
`.git` is never descended into; other directories matching `EXCLUDE_DIRS`
are skipped unless raw mode. -/
def rtreeKeepDir (raw : Bool) (n : String) : Bool :=
  n ≠ ".git" && (raw || !EXCLUDE_DIRS.any (fun p => fnmatch n p))

/-- The directory candidates emitted while scanning one directory's
`dirnames`: `.git` is listed (with trailing slash) only in raw mode; pruned
directories are not listed; all others are. -/
def rtreeDirCands (raw : Bool) (dirs : List String) (cs : List Entry) : List Cand :=
  (dirsOf cs).filterMap (fun d =>
    if d.1 = ".git" then (if raw then some (Cand.mk dirs d.1 true) else none)
    else if !raw && EXCLUDE_DIRS.any (fun p => fnmatch d.1 p) then none
    else some (Cand.mk dirs d.1 true))

/-- `RepoTreeVisualizer._collect_candidates` below the root: at each visited
directory, if the depth limit is reached nothing is collected and the walk
stops (`dirnames[:] = []; filenames[:] = []; continue`); otherwise its
directory candidates, then its files, then the recursive walk of the
non-pruned subdirectories. -/
def rtree_sub (raw : Bool) (maxDepth : Int) (dirs : List String) : List Entry → List Cand
  | [] => []
  | .file _ _ :: rest => rtree_sub raw maxDepth dirs rest
  | .dir n cs :: rest =>
    (if rtreeKeepDir raw n then
      (let dirs' := dirs ++ [n]
       if -1 < maxDepth ∧ maxDepth ≤ (dirs'.length : Int) then []
       else
         rtreeDirCands raw dirs' cs
         ++ (filesOf cs).map (fun f => Cand.mk dirs' f.1 false)
         ++ rtree_sub raw maxDepth dirs' cs)
     else []) ++ rtree_sub raw maxDepth dirs rest

/-- `RepoTreeVisualizer._collect_candidates` from the root (depth 0). -/
def rtree_collect (raw : Bool) (maxDepth : Int) (tree : List Entry) : List Cand :=
  if -1 < maxDepth ∧ maxDepth ≤ (0 : Int) then []
  else
    rtreeDirCands raw [] tree
    ++ (filesOf tree).map (fun f => Cand.mk [] f.1 false)
    ++ rtree_sub raw maxDepth [] tree

/-- `RepoTreeVisualizer._read_and_compile_gitignore`.  Note the tuple layout
here is `(pattern, is_dir, anchored)` while `simple_gitignore_match` reads
its tuples as `(pattern, is_negation, is_dir_only)` — embedded exactly as
written. -/
def rtree_read_and_compile_gitignore (tree : List Entry) : List (String × Bool × Bool) :=
  match rootGitignoreLines tree with
  | none => []
  | some ls =>
    ls.filterMap fun rawLine =>
      let line := strTrim rawLine
      if line = "" || strStartsWith line "#" then none
      else
        let isDir := strEndsWith line "/"
        let line₁ := if isDir then strDropRight line 1 else line
        let anchored := strStartsWith line₁ "/"
        let line₂ := if anchored then strDrop line₁ 1 else line₁
        some (replaceBackslashes line₂, isDir, anchored)

/-- Does the root contain `.gitignore` as a regular file
(`os.path.isfile`)? -/
def hasRootGitignoreFile (tree : List Entry) : Bool :=
  (filesOf tree).any (fun f => f.1 = ".gitignore")

/-- The list `RepoTreeVisualizer._scan_repo` passes to `git_check_ignore`:
`list(candidates)` where `candidates = set(all_rel)` — all candidates,
directory entries (trailing slash) included. -/
def rtree_check_ignore_input (tree : List Entry) (raw : Bool) (maxDepth : Int) : List String :=
  distinctList ((rtree_collect raw maxDepth tree).map Cand.render)

/-- `RepoTreeVisualizer._scan_repo`: the visible-path set (as a list,
meaningful through membership).  Raw mode returns every candidate; otherwise
the ignored set (authoritative or fallback) is subtracted and a root
`.gitignore` file is force-included. -/
def rtree_visible (tree : List Entry) (raw : Bool) (maxDepth : Int) (proc : Option ProcResult) :
    List String :=
  let candidates := rtree_check_ignore_input tree raw maxDepth
  if raw then candidates
  else
    let ignored :=
      if is_git_repo tree then git_check_ignore proc candidates
      else
        let pats := rtree_read_and_compile_gitignore tree
        candidates.filter
          (fun path => simple_gitignore_match (rstripSlash path) pats (strEndsWith path "/"))
    let visible := candidates.filter (fun p => !ignored.contains p)
    if hasRootGitignoreFile tree then visible.insert ".gitignore" else visible

/-! ## `locr/engine.py` and `locr/languages.py`: the LOC counter -/

/-- Comment syntax of one language (`name`, `single`, `multi` fields of a
`LANGUAGES` entry; the display color is presentation only). -/
structure LangDef where
  name : String
  single : Option String
  multi : Option (String × String)
deriving Repr, DecidableEq

/-- `LANGUAGES`: extension → language definition. -/
def LANGUAGES : List (String × LangDef) :=
  [(".py", ⟨"Python", some "#", some ("\"\"\"", "\"\"\"")⟩),
   (".html", ⟨"HTML", none, some ("<!--", "-->")⟩),
   (".css", ⟨"CSS", none, some ("/*", "*/")⟩),
   (".scss", ⟨"Sass", some "//", some ("/*", "*/")⟩),
   (".js", ⟨"JavaScript", some "//", some ("/*", "*/")⟩),
   (".jsx", ⟨"JavaScript JSX", some "//", some ("/*", "*/")⟩),
   (".ts", ⟨"TypeScript", some "//", some ("/*", "*/")⟩),
   (".tsx", ⟨"TypeScript TSX", some "//", some ("/*", "*/")⟩),
   (".json", ⟨"JSON", none, none⟩),
   (".c", ⟨"C", some "//", some ("/*", "*/")⟩),
   (".h", ⟨"C Header", some "//", some ("/*", "*/")⟩),
   (".cpp", ⟨"C++", some "//", some ("/*", "*/")⟩),
   (".cs", ⟨"C#", some "//", some ("/*", "*/")⟩),
   (".java", ⟨"Java", some "//", some ("/*", "*/")⟩),
   (".go", ⟨"Go", some "//", some ("/*", "*/")⟩),
   (".rs", ⟨"Rust", some "//", some ("/*", "*/")⟩),
   (".php", ⟨"PHP", some "//", some ("/*", "*/")⟩),
   (".md", ⟨"Markdown", none, none⟩),
   (".yaml", ⟨"YAML", some "#", none⟩),
   (".yml", ⟨"YAML", some "#", none⟩),
   (".toml", ⟨"TOML", some "#", none⟩),
   (".xml", ⟨"XML", none, some ("<!--", "-->")⟩),
   (".sql", ⟨"SQL", some "--", some ("/*", "*/")⟩),
   (".sh", ⟨"Shell", some "#", none⟩),
   (".lua", ⟨"Lua", some "--", some ("--[[", "]]")⟩)]

/-- Python `sub in s` (substring containment). -/
def strContains (s sub : String) : Bool :=
  s.toList.tails.any (fun t => sub.toList.isPrefixOf t)

/-- `LocrEngine._load_default_patterns`: the default directory excludes plus
the root ignore-rule file's pattern lines, compiled for fnmatch as
`(pattern, is_dir, anchored)` tuples (consumed by `simple_gitignore_match`
as `(pattern, is_negation, is_dir_only)` — embedded exactly as written). -/
def locr_load_default_patterns (tree : List Entry) : List (String × Bool × Bool) :=
  let rawPatterns := EXCLUDE_DIRS ++
    (match rootGitignoreLines tree with
     | none => []
     | some ls =>
       ls.filterMap (fun line =>
         let l := strTrim line
         if l ≠ "" && !strStartsWith l "#" then some l else none))
  rawPatterns.map fun rawPat =>
    let p := strTrim rawPat
    let isDir := strEndsWith p "/"
    let p₁ := if isDir then strDropRight p 1 else p
    let anchored := strStartsWith p₁ "/"
    let p₂ := if anchored then strDrop p₁ 1 else p₁
    (replaceBackslashes p₂, isDir, anchored)

/-- `LocrEngine._simple_gitignore_match`. -/
def locr_simple_match (relpath : String) (patterns : List (String × Bool × Bool)) : Bool :=
  simple_gitignore_match (rstripSlash relpath) patterns (strEndsWith relpath "/")

/-- The per-directory file collection of `LocrEngine._collect_and_filter_files`:
only files with a known extension; in non-raw mode, files matching the
simple patterns are skipped.  There is no symlink check here. -/
def locrDirFiles (raw : Bool) (pats : List (String × Bool × Bool)) (dirs : List String)
    (cs : List Entry) : List PathInfo :=
  (filesOf cs).filterMap (fun f =>
    if !(LANGUAGES.any (fun l => l.1 = strToLower (extOf f.1))) then none
    else
      let rel := relJoin dirs f.1
      if !raw && locr_simple_match rel pats then none
      else some (PathInfo.mk dirs f.1 f.2))

/-- Phase 1 of `LocrEngine._collect_and_filter_files` below the root: in
non-raw mode `.git` and directories matching the simple patterns are pruned
before descending; raw mode descends everywhere. -/
def locr_sub (raw : Bool) (pats : List (String × Bool × Bool)) (dirs : List String) :
    List Entry → List PathInfo
  | [] => []
  | .file _ _ :: rest => locr_sub raw pats dirs rest
  | .dir n cs :: rest =>
    (if raw || (n ≠ ".git" && !locr_simple_match (relJoin dirs n) pats) then
      locrDirFiles raw pats (dirs ++ [n]) cs ++ locr_sub raw pats (dirs ++ [n]) cs
     else []) ++ locr_sub raw pats dirs rest

/-- Phase 1 of `LocrEngine._collect_and_filter_files` from the root. -/
def locr_walk (tree : List Entry) (raw : Bool) (pats : List (String × Bool × Bool)) :
    List PathInfo :=
  locrDirFiles raw pats [] tree ++ locr_sub raw pats [] tree

/-- `LocrEngine._collect_and_filter_files`: phase 1 walk, then (non-raw, in
a Git repo) subtraction of the authoritative ignored set. -/
def locr_collect (tree : List Entry) (raw : Bool) (proc : Option ProcResult) : List PathInfo :=
  let pats := if raw then [] else locr_load_default_patterns tree
  let allPaths := locr_walk tree raw pats
  if raw || allPaths.isEmpty then allPaths
  else
    let ignored :=
      if is_git_repo tree then git_check_ignore proc (allPaths.map PathInfo.rel) else []
    allPaths.filter (fun p => !ignored.contains p.rel)

/-- `LocrEngine._analyze_file` on a file's lines: `(blank, comment, code)`
line counts, tracking the inside-block-comment state. -/
def locr_analyze_file (lines : List String) (lang : LangDef) : Nat × Nat × Nat :=
  let final := lines.foldl
    (fun (st : (Nat × Nat × Nat) × Bool) line =>
      let counts := st.1
      let inBlock := st.2
      let stripped := strTrim line
      if stripped = "" then ((counts.1 + 1, counts.2.1, counts.2.2), inBlock)
      else if inBlock then
        let exitBlock := match lang.multi with
          | some m => strContains line m.2
          | none => false
        ((counts.1, counts.2.1 + 1, counts.2.2), if exitBlock then false else inBlock)
      else
        match lang.multi with
        | some m =>
          if strStartsWith stripped m.1 then
            let enter := !strContains (strDrop stripped m.1.toList.length) m.2
            ((counts.1, counts.2.1 + 1, counts.2.2), enter)
          else
            match lang.single with
            | some s =>
              if strStartsWith stripped s then ((counts.1, counts.2.1 + 1, counts.2.2), inBlock)
              else ((counts.1, counts.2.1, counts.2.2 + 1), inBlock)
            | none => ((counts.1, counts.2.1, counts.2.2 + 1), inBlock)
        | none =>
          match lang.single with
          | some s =>
            if strStartsWith stripped s then ((counts.1, counts.2.1 + 1, counts.2.2), inBlock)
            else ((counts.1, counts.2.1, counts.2.2 + 1), inBlock)
          | none => ((counts.1, counts.2.1, counts.2.2 + 1), inBlock))
    ((0, 0, 0), false)
  final.1

/-- The aggregate `(blank, comment, code)` totals a `LocrEngine.scan` run
adds up over the collected files (the per-language grouping of the results
dict is presentation only). -/
def locr_scan_counts (tree : List Entry) (raw : Bool) (proc : Option ProcResult) :
    Nat × Nat × Nat :=
  (locr_collect tree raw proc).foldl
    (fun acc i =>
      match LANGUAGES.find? (fun l => l.1 = strToLower (extOf i.name)) with
      | some l =>
        let r := locr_analyze_file i.meta.lines l.2
        (acc.1 + r.1, acc.2.1 + r.2.1, acc.2.2 + r.2.2)
      | none => acc)
    (0, 0, 0)

/-! ## Theorems -/

/-- Specification-side reading of the fallback matcher: the verdict of the
LAST rule, in file order, that is applicable (a dir-only rule is not
applicable to a file) and matches the basename or the full relative path;
`false` when no rule matches. -/
def last_match_verdict (relpath : String) (patterns : List (String × Bool × Bool))
    (isDir : Bool) : Bool :=
  match patterns.reverse.find? (fun r =>
      !(r.2.2 && !isDir) && (fnmatch (osBasename relpath) r.1 || fnmatch relpath r.1)) with
  | some r => !r.2.1
  | none => false

theorem simple_match_foldl_eq (relpath : String) (isDir : Bool) :
    ∀ (ps : List (String × Bool × Bool)) (acc : Bool),
      ps.foldl
        (fun ignored r =>
          if r.2.2 && !isDir then ignored
          else if fnmatch (osBasename relpath) r.1 || fnmatch relpath r.1 then !r.2.1
          else ignored)
        acc =
      (match ps.reverse.find? (fun r =>
          !(r.2.2 && !isDir) && (fnmatch (osBasename relpath) r.1 || fnmatch relpath r.1)) with
       | some r => !r.2.1
       | none => acc) := by
  intro ps
  induction ps with
  | nil => intro acc; simp
  | cons r rest ih =>
    intro acc
    rw [List.foldl_cons, ih]
    rw [List.reverse_cons, List.find?_append]
    cases hfind : rest.reverse.find? (fun r =>
        !(r.2.2 && !isDir) && (fnmatch (osBasename relpath) r.1 || fnmatch relpath r.1)) with
    | some r' => simp
    | none =>
      simp only [Option.none_orElse]
      by_cases hdir : r.2.2 && !isDir
      · simp [hdir, List.find?]
      · by_cases hmat : fnmatch (osBasename relpath) r.1 || fnmatch relpath r.1
        · simp [hdir, hmat, List.find?]
        · simp [hdir, hmat, List.find?]

/-- C9: the fallback matcher evaluates all compiled rules in file order and
returns the last matching rule's verdict (so a later negation rule
re-includes a path matched by an earlier rule); a directory-only rule is
skipped when the candidate is a file; and each rule is matched against both
the path's base name and its full relative path. -/
theorem fallback_matcher_last_match_wins (relpath : String)
    (patterns : List (String × Bool × Bool)) (isDir : Bool) :
    simple_gitignore_match relpath patterns isDir = last_match_verdict relpath patterns isDir := by
  rw [simple_gitignore_match, last_match_verdict, simple_match_foldl_eq]

example :
    simple_gitignore_match "build/debug.log"
      (compile_gitignore_patterns (some ["*.log", "!debug.log", "cache/"])) false = false := by
  decide

example :
    simple_gitignore_match "x/other.log"
      (compile_gitignore_patterns (some ["*.log", "!debug.log", "cache/"])) false = true := by
  decide

/-- C1 counterexample input: a root with Git metadata, a `.gitignore` whose
rule matches a file, and a failed check-ignore invocation. -/
def c1Tree : List Entry :=
  [.dir ".git" [], .file ".gitignore" { lines := ["*.log"] },
   .file "debug.log" {}, .file "main.py" {}]

/-- C1 counterexample: with Git metadata present and the authoritative
check-ignore invocation failing (subprocess exception), the scan's ignored
set is empty — it does NOT equal what the fallback ignore-rule-file matcher
computes on the same candidates, which is nonempty. -/
theorem checkignore_failure_not_fallback :
    (collect_files_with_pruning c1Tree false [] (-1) none).2 = [] ∧
    fallbackIgnoredSet c1Tree (collect_files_with_pruning c1Tree false [] (-1) none).1 =
      ["debug.log"] := by
  constructor
  · simp [collect_files_with_pruning, is_git_repo, dirsOf, c1Tree, git_check_ignore,
      gitPhaseInput, collect_walk, collect_sub, keptDirs, filesOf, should_eager_prune]
  · simp [collect_files_with_pruning, collect_walk, collect_sub, keptDirs, filesOf, dirsOf,
      c1Tree, should_eager_prune, fallbackIgnoredSet, rootGitignoreLines]
    decide

/-- C1 (amended): on a root that has Git metadata, when the authoritative
check-ignore invocation fails (exception/timeout/missing binary, a
non-0/1 exit code, or empty output), the scan does not error and its
ignored set is empty; the fallback ignore-rule-file matcher is reached only
when the root has no Git metadata. -/
theorem checkignore_failure_empty_ignored (tree : List Entry) (extra : List String)
    (maxDepth : Int) (proc : Option ProcResult)
    (hgit : is_git_repo tree = true)
    (hfail : proc = none ∨ ∃ r, proc = some r ∧
      ((r.returncode ≠ 0 ∧ r.returncode ≠ 1) ∨ r.stdout = "")) :
    (collect_files_with_pruning tree false extra maxDepth proc).2 = [] := by
  have hnil : ∀ paths, git_check_ignore proc paths = [] := by
    intro paths
    rcases hfail with rfl | ⟨r, rfl, hr⟩
    · simp [git_check_ignore]
    · rcases hr with ⟨h0, h1⟩ | h2
      · simp [git_check_ignore, h0, h1]
      · simp [git_check_ignore, h2]
  rw [collect_files_with_pruning]
  simp [hgit, hnil]

/-- Witness for C1 (amended): a concrete git-backed tree and a failed
invocation; the ignored set is empty. -/
theorem checkignore_failure_empty_ignored_witness :
    is_git_repo [Entry.dir ".git" [], Entry.file "a.log" {}] = true ∧
    (collect_files_with_pruning [Entry.dir ".git" [], Entry.file "a.log" {}]
      false [] (-1) (some ⟨128, ""⟩)).2 = [] := by
  refine ⟨by decide, ?_⟩
  exact checkignore_failure_empty_ignored _ [] (-1) (some ⟨128, ""⟩) (by decide)
    (Or.inr ⟨⟨128, ""⟩, rfl, Or.inl (by decide)⟩)

/-- C3 counterexample input: a Git-backed root with one subdirectory. -/
def c3Tree : List Entry := [.dir ".git" [], .dir "src" [.file "a.py" {}]]

/-- C3 counterexample: the tree visualizer passes its whole candidate set to
the check-ignore call, so a directory-type candidate (trailing separator
marker) IS included in that call's input on a Git-backed root. -/
theorem rtree_checkignore_input_has_directory :
    is_git_repo c3Tree = true ∧
    "src/" ∈ rtree_check_ignore_input c3Tree false (-1) ∧
    strEndsWith "src/" "/" = true := by
  refine ⟨by decide, ?_, by decide⟩
  simp +decide [rtree_check_ignore_input, rtree_collect, rtree_sub, rtreeDirCands, rtreeKeepDir,
    filesOf, dirsOf, c3Tree, Cand.render, relJoin, strJoin, distinctList, distinctAux]

/-- C3 (amended): the shared scanner `collect_files_with_pruning` passes
only file-type candidates to the authoritative resolver (directory-marked
candidates are filtered out of the check-ignore input); the tree visualizer
deviates and passes every candidate, directory-marked ones included. -/
theorem checkignore_input_files_only (tree : List Entry) (raw : Bool) (extra : List String)
    (maxDepth : Int) (p : String) (hp : p ∈ gitPhaseInput tree raw extra maxDepth) :
    strEndsWith p "/" = false := by
  rw [gitPhaseInput] at hp
  have := (List.mem_filter.1 hp).2
  simpa using this

/-- Witness for C3 (amended): a concrete file candidate of the shared
scanner carries no trailing separator. -/
theorem checkignore_input_files_only_witness :
    "src/a.py" ∈ gitPhaseInput c3Tree false [] (-1) ∧
    strEndsWith "src/a.py" "/" = false := by
  constructor
  · simp +decide [gitPhaseInput, collect_walk, collect_sub, keptDirs, filesOf, dirsOf, c3Tree,
      should_eager_prune, Cand.render, relJoin, strJoin]
  · exact checkignore_input_files_only c3Tree false [] (-1) "src/a.py"
      (by
        simp +decide [gitPhaseInput, collect_walk, collect_sub, keptDirs, filesOf, dirsOf,
          c3Tree, should_eager_prune, Cand.render, relJoin, strJoin])

/-- C4 counterexample input: a Git-backed repo with one `.py` file which the
authority reports as ignored, scanned with the extension allow-list
`["py"]`. -/
def c4Tree : List Entry := [.dir ".git" [], .file "a.py" {}]

def c4Cfg : GitMigConfig := { extFilter := ["py"] }

def c4Proc : Option ProcResult := some ⟨0, "a.py"⟩

/-- C4 counterexample: `a.py` is in the authority's ignored set, its
extension is in the allow-list, and it DOES appear in the copy list — the
extension filter replaces rather than supplements ignore resolution. -/
theorem ext_filter_overrides_ignored_file :
    gitmig_ignored c4Cfg c4Tree c4Proc = ["a.py"] ∧
    (PathInfo.mk [] "a.py" {}, 0) ∈ gitmig_files_to_copy c4Cfg c4Tree c4Proc := by
  constructor
  · simp +decide [gitmig_ignored, c4Cfg, c4Tree, c4Proc, is_git_repo, dirsOf, filesOf,
      gitmig_walk, gitmig_sub, should_exclude_dir, GitMigConfig.exclude_dirs, EXCLUDE_DIRS,
      git_check_ignore, PathInfo.rel, relJoin, strJoin, is_safe_relpath, splitChar,
      splitCharAux]
  · simp +decide [gitmig_files_to_copy, gitmig_ignored, c4Cfg, c4Tree, c4Proc, is_git_repo,
      dirsOf, filesOf, gitmig_walk, gitmig_sub, should_exclude_dir,
      GitMigConfig.exclude_dirs, EXCLUDE_DIRS, git_check_ignore, PathInfo.rel, relJoin,
      strJoin, is_safe_relpath, splitChar, splitCharAux, matches_ext_filter, extOf,
      lstripDot, strToLower]

/-- C4 (amended): when an extension allow-list is configured (and env-only
mode is off), the copy list is exactly the walked candidates filtered by the
symlink check, the size ceiling and the case-insensitive dot-less extension
test — ignore resolution plays no part in this mode (the result does not
depend on the check-ignore oracle at all). -/
theorem ext_filter_replaces_ignore (cfg : GitMigConfig) (tree : List Entry)
    (proc : Option ProcResult) (hext : cfg.extFilter ≠ []) (henv : cfg.envOnly = false) :
    gitmig_files_to_copy cfg tree proc =
      (gitmig_walk cfg tree).filterMap (fun i =>
        if i.meta.isLink then none
        else if cfg.maxSize ≠ 0 ∧ i.meta.size > cfg.maxSize then none
        else if ¬ matches_ext_filter cfg i.name then none
        else some (i, i.meta.size)) := by
  have hne : cfg.extFilter.isEmpty = false := by
    cases h : cfg.extFilter with
    | nil => exact absurd h hext
    | cons a l => rfl
  rw [gitmig_files_to_copy]
  congr 1
  funext i
  simp [henv, hne]

/-- Witness for C4 (amended), at the concrete counterexample inputs. -/
theorem ext_filter_replaces_ignore_witness :
    gitmig_files_to_copy c4Cfg c4Tree c4Proc =
      (gitmig_walk c4Cfg c4Tree).filterMap (fun i =>
        if i.meta.isLink then none
        else if c4Cfg.maxSize ≠ 0 ∧ i.meta.size > c4Cfg.maxSize then none
        else if ¬ matches_ext_filter c4Cfg i.name then none
        else some (i, i.meta.size)) :=
  ext_filter_replaces_ignore c4Cfg c4Tree c4Proc (by decide) (by rfl)

/-- Every file collected by the copier's walk below the root extends the
accumulated directory chain, and every component added below it survived the
eager-prune check. -/
theorem gitmig_sub_dirs_clean (cfg : GitMigConfig) :
    ∀ (dirs : List String) (l : List Entry) (i : PathInfo), i ∈ gitmig_sub cfg dirs l →
      ∃ suf, i.dirs = dirs ++ suf ∧ ∀ d ∈ suf, should_exclude_dir cfg d = false := by
  intro dirs l
  induction dirs, l using gitmig_sub.induct cfg with
  | case1 dirs => intro i hi; rw [gitmig_sub] at hi; cases hi
  | case2 dirs _ _ rest ih =>
    intro i hi
    rw [gitmig_sub] at hi
    exact ih i hi
  | case3 dirs n cs rest ih1 ih2 =>
    intro i hi
    rw [gitmig_sub] at hi
    rcases List.mem_append.1 hi with hi | hi
    · by_cases hex : should_exclude_dir cfg n
      · rw [if_neg (by simp [hex])] at hi
        cases hi
      · rw [if_pos (by simp [hex])] at hi
        rcases List.mem_append.1 hi with hi | hi
        · obtain ⟨f, _, rfl⟩ := List.mem_map.1 hi
          refine ⟨[n], rfl, ?_⟩
          intro d hd
          rw [List.mem_singleton] at hd
          subst hd
          simpa using hex
        · obtain ⟨suf, hsuf, hclean⟩ := ih1 i hi
          refine ⟨n :: suf, by simpa using hsuf, ?_⟩
          intro d hd
          rcases List.mem_cons.1 hd with rfl | hd
          · simpa using hex
          · exact hclean d hd
    · exact ih2 i hi

/-- C2: for every directory whose bare name matches an eager-prune pattern
or a user-supplied extra exclude (i.e. `_should_exclude_dir`), no path
inside that directory ever appears among the copier's walked candidates or
in its copy list — every collected path's directory chain consists solely of
non-excluded names, regardless of ignore-rule content and of preserve
patterns. -/
theorem eager_prune_containment (cfg : GitMigConfig) (tree : List Entry)
    (proc : Option ProcResult) :
    (∀ i ∈ gitmig_walk cfg tree, ∀ d ∈ i.dirs, should_exclude_dir cfg d = false) ∧
    (∀ p ∈ gitmig_files_to_copy cfg tree proc, ∀ d ∈ p.1.dirs,
      should_exclude_dir cfg d = false) := by
  have hwalk : ∀ i ∈ gitmig_walk cfg tree, ∀ d ∈ i.dirs, should_exclude_dir cfg d = false := by
    intro i hi
    rw [gitmig_walk] at hi
    rcases List.mem_append.1 hi with hi | hi
    · obtain ⟨f, _, rfl⟩ := List.mem_map.1 hi
      intro d hd
      cases hd
    · obtain ⟨suf, hsuf, hclean⟩ := gitmig_sub_dirs_clean cfg [] _ i hi
      intro d hd
      exact hclean d (by simpa [hsuf] using hd)
  refine ⟨hwalk, ?_⟩
  intro p hp
  rw [gitmig_files_to_copy] at hp
  obtain ⟨a, ha, hfa⟩ := List.mem_filterMap.1 hp
  have hap : a = p.1 := by
    repeat' split at hfa
    all_goals try cases hfa
    all_goals rfl
  exact hap ▸ hwalk a ha

/-- Witness for C2: a concrete nested tree whose surviving copy-list entry
has only non-excluded directory components. -/
theorem eager_prune_containment_witness :
    (PathInfo.mk ["src"] "a.py" {}, 0) ∈
      gitmig_files_to_copy {} [.dir "src" [.file "a.py" {}], .dir "dist" [.file "x.js" {}]]
        none ∧
    (∀ d ∈ (PathInfo.mk ["src"] "a.py" {}).dirs, should_exclude_dir {} d = false) := by
  constructor
  · simp +decide [gitmig_files_to_copy, gitmig_ignored, gitmig_walk, gitmig_sub, filesOf,
      dirsOf, is_git_repo, should_exclude_dir, GitMigConfig.exclude_dirs, EXCLUDE_DIRS,
      should_exclude_file, GitMigConfig.exclude_files, EXCLUDE_FILE_PATTERNS,
      should_preserve, PRESERVE_PATTERNS, matches_ext_filter]
  · exact (eager_prune_containment {} [.dir "src" [.file "a.py" {}],
      .dir "dist" [.file "x.js" {}]] none).2 (PathInfo.mk ["src"] "a.py" {}, 0)
      (by
        simp +decide [gitmig_files_to_copy, gitmig_ignored, gitmig_walk, gitmig_sub, filesOf,
          dirsOf, is_git_repo, should_exclude_dir, GitMigConfig.exclude_dirs, EXCLUDE_DIRS,
          should_exclude_file, GitMigConfig.exclude_files, EXCLUDE_FILE_PATTERNS,
          should_preserve, PRESERVE_PATTERNS, matches_ext_filter])

/-- C6: in the copier's default mode (no env-only mode, no extension
filter), a walked candidate file (hence not inside an eagerly-pruned
directory) that is not a symlink and within the size ceiling appears in the
copy list whenever its bare filename matches a preserve pattern — in
particular even when the authority reports it ignored and/or it matches a
default-exclude file pattern. -/
theorem preserve_overrides_exclusion (cfg : GitMigConfig) (tree : List Entry)
    (proc : Option ProcResult) (i : PathInfo)
    (henv : cfg.envOnly = false) (hext : cfg.extFilter = [])
    (hi : i ∈ gitmig_walk cfg tree)
    (hlink : i.meta.isLink = false)
    (hsize : cfg.maxSize = 0 ∨ i.meta.size ≤ cfg.maxSize)
    (hpres : should_preserve i.name = true) :
    (i, i.meta.size) ∈ gitmig_files_to_copy cfg tree proc := by
  rw [gitmig_files_to_copy]
  apply List.mem_filterMap.2
  refine ⟨i, hi, ?_⟩
  have hs : ¬ (cfg.maxSize ≠ 0 ∧ i.meta.size > cfg.maxSize) := by
    rcases hsize with h | h
    · simp [h]
    · omega
  simp [hlink, hs, henv, hext, hpres]

/-- Witness for C6: `.env` is reported ignored by the authority but still
appears in the copy list. -/
theorem preserve_overrides_exclusion_witness :
    gitmig_ignored {} [.dir ".git" [], .file ".env" {}] (some ⟨0, ".env"⟩) = [".env"] ∧
    (PathInfo.mk [] ".env" {}, 0) ∈
      gitmig_files_to_copy {} [.dir ".git" [], .file ".env" {}] (some ⟨0, ".env"⟩) := by
  constructor
  · simp +decide [gitmig_ignored, gitmig_walk, gitmig_sub, filesOf, dirsOf, is_git_repo,
      should_exclude_dir, GitMigConfig.exclude_dirs, EXCLUDE_DIRS, git_check_ignore,
      PathInfo.rel, relJoin, strJoin, is_safe_relpath, splitChar, splitCharAux]
  · exact preserve_overrides_exclusion {} [.dir ".git" [], .file ".env" {}]
      (some ⟨0, ".env"⟩) (PathInfo.mk [] ".env" {}) rfl rfl
      (by
        simp +decide [gitmig_walk, gitmig_sub, filesOf, dirsOf, should_exclude_dir,
          GitMigConfig.exclude_dirs, EXCLUDE_DIRS])
      rfl (Or.inl rfl) (by decide)

/-- C5 counterexample input: a root whose only entry is a symbolic link
named `a.py` pointing at a one-line Python file. -/
def c5Tree : List Entry := [.file "a.py" { isLink := true, lines := ["x = 1"] }]

/-- C5 counterexample: the LOC counter has no symlink check — the symlinked
`a.py` is in its countable set and its single code line is counted. -/
theorem locr_counts_symlink :
    PathInfo.mk [] "a.py" { isLink := true, lines := ["x = 1"] } ∈
      locr_collect c5Tree false none ∧
    locr_scan_counts c5Tree false none = (0, 0, 1) := by
  constructor
  · simp +decide [locr_collect, locr_walk, locr_sub, locrDirFiles, filesOf, dirsOf, c5Tree,
      locr_load_default_patterns, rootGitignoreLines, locr_simple_match,
      simple_gitignore_match, is_git_repo, PathInfo.rel, relJoin, strJoin]
  · simp +decide [locr_scan_counts, locr_collect, locr_walk, locr_sub, locrDirFiles,
      filesOf, dirsOf, c5Tree, locr_load_default_patterns, rootGitignoreLines,
      locr_simple_match, simple_gitignore_match, is_git_repo, PathInfo.rel, relJoin,
      strJoin, locr_analyze_file]

/-- C5 (amended): the copier excludes every symbolic link from its copy
list, but the LOC counter performs no symlink check: a symlinked file with a
counted extension is collected (and its lines are counted). -/
theorem symlink_policy_by_engine :
    (∀ (cfg : GitMigConfig) (tree : List Entry) (proc : Option ProcResult),
      ∀ p ∈ gitmig_files_to_copy cfg tree proc, p.1.meta.isLink = false) ∧
    PathInfo.mk [] "a.py" { isLink := true, lines := ["x = 1"] } ∈
      locr_collect c5Tree false none := by
  constructor
  · intro cfg tree proc p hp
    rw [gitmig_files_to_copy] at hp
    obtain ⟨a, ha, hfa⟩ := List.mem_filterMap.1 hp
    repeat' split at hfa
    all_goals try cases hfa
    all_goals simp_all
  · simp +decide [locr_collect, locr_walk, locr_sub, locrDirFiles, filesOf, dirsOf, c5Tree,
      locr_load_default_patterns, rootGitignoreLines, locr_simple_match,
      simple_gitignore_match, is_git_repo, PathInfo.rel, relJoin, strJoin]

/-- Witness for C5 (amended): the copier's copy list on a tree holding a
regular file and a symlink contains only the regular file, whose link flag
is false by the theorem. -/
theorem symlink_policy_by_engine_witness :
    (PathInfo.mk [] "b.py" {}, 0) ∈
      gitmig_files_to_copy {} [.file "b.py" {}, .file "lnk.py" { isLink := true }] none ∧
    (PathInfo.mk [] "b.py" {}).meta.isLink = false := by
  have hmem : (PathInfo.mk [] "b.py" {}, 0) ∈
      gitmig_files_to_copy {} [.file "b.py" {}, .file "lnk.py" { isLink := true }] none := by
    simp +decide [gitmig_files_to_copy, gitmig_ignored, gitmig_walk, gitmig_sub, filesOf,
      dirsOf, is_git_repo, should_exclude_file, GitMigConfig.exclude_files,
      EXCLUDE_FILE_PATTERNS, should_preserve, PRESERVE_PATTERNS]
  exact ⟨hmem, symlink_policy_by_engine.1 {} _ none _ hmem⟩

/-- Depth bound for the shared scanner's recursive walk: with a nonnegative
limit, every collected candidate sits strictly above the limit in directory
depth. -/
theorem collect_sub_depth_lt (raw : Bool) (extra : List String) (d : Int) (hd : 0 ≤ d) :
    ∀ (dirs : List String) (l : List Entry) (c : Cand), c ∈ collect_sub raw extra d dirs l →
      (c.dirs.length : Int) < d := by
  intro dirs l
  induction dirs, l using collect_sub.induct raw extra d with
  | case1 dirs => intro c hc; rw [collect_sub] at hc; cases hc
  | case2 dirs _ _ rest ih =>
    intro c hc
    rw [collect_sub] at hc
    exact ih c hc
  | case3 dirs n cs rest ih1 ih2 =>
    intro c hc
    rw [collect_sub] at hc
    rcases List.mem_append.1 hc with hc | hc
    · split at hc
      · dsimp only at hc
        split at hc
        · cases hc
        · rename_i hguard
          have hlen : ((dirs ++ [n]).length : Int) < d := by
            push_neg at hguard
            have := hguard hd
            omega
          rcases List.mem_append.1 hc with hc | hc
          · rcases List.mem_append.1 hc with hc | hc
            · obtain ⟨f, _, rfl⟩ := List.mem_map.1 hc
              simpa using hlen
            · obtain ⟨dd, _, rfl⟩ := List.mem_map.1 hc
              simpa using hlen
          · exact ih1 c hc
      · cases hc
    · exact ih2 c hc

/-- Depth bound from the root for the shared scanner. -/
theorem collect_walk_depth_le (raw : Bool) (extra : List String) (d : Int) (hd : 0 ≤ d) :
    ∀ c ∈ collect_walk raw extra d tree, (c.dirs.length : Int) + 1 ≤ d := by
  intro c hc
  rw [collect_walk] at hc
  split at hc
  · cases hc
  · rename_i hguard
    have hpos : 0 < d := by
      push_neg at hguard
      have := hguard hd
      omega
    rcases List.mem_append.1 hc with hc | hc
    · rcases List.mem_append.1 hc with hc | hc
      · obtain ⟨f, _, rfl⟩ := List.mem_map.1 hc
        simpa using hpos
      · obtain ⟨dd, _, rfl⟩ := List.mem_map.1 hc
        simpa using hpos
    · have := collect_sub_depth_lt raw extra d hd [] tree c hc
      omega

/-- Depth bound for the rtree walk below the root. -/
theorem rtree_sub_depth_lt (raw : Bool) (d : Int) (hd : 0 ≤ d) :
    ∀ (dirs : List String) (l : List Entry) (c : Cand), c ∈ rtree_sub raw d dirs l →
      (c.dirs.length : Int) < d := by
  intro dirs l
  induction dirs, l using rtree_sub.induct raw d with
  | case1 dirs => intro c hc; rw [rtree_sub] at hc; cases hc
  | case2 dirs _ _ rest ih =>
    intro c hc
    rw [rtree_sub] at hc
    exact ih c hc
  | case3 dirs n cs rest ih1 ih2 =>
    intro c hc
    rw [rtree_sub] at hc
    rcases List.mem_append.1 hc with hc | hc
    · split at hc
      · dsimp only at hc
        split at hc
        · cases hc
        · rename_i hguard
          have hlen : ((dirs ++ [n]).length : Int) < d := by
            push_neg at hguard
            have := hguard (by omega)
            omega
          rcases List.mem_append.1 hc with hc | hc
          · rcases List.mem_append.1 hc with hc | hc
            · rw [rtreeDirCands] at hc
              obtain ⟨dd, _, hdd⟩ := List.mem_filterMap.1 hc
              have : c.dirs = dirs ++ [n] := by
                repeat' split at hdd
                all_goals try cases hdd
                all_goals rfl
              rw [this]
              exact hlen
            · obtain ⟨f, _, rfl⟩ := List.mem_map.1 hc
              simpa using hlen
          · exact ih1 c hc
      · cases hc
    · exact ih2 c hc

/-- Depth bound from the root for the rtree walk. -/
theorem rtree_collect_depth_le (raw : Bool) (d : Int) (hd : 0 ≤ d) (tree : List Entry) :
    ∀ c ∈ rtree_collect raw d tree, (c.dirs.length : Int) + 1 ≤ d := by
  intro c hc
  rw [rtree_collect] at hc
  split at hc
  · cases hc
  · rename_i hguard
    have hpos : 0 < d := by
      push_neg at hguard
      have := hguard (by omega)
      omega
    rcases List.mem_append.1 hc with hc | hc
    · rcases List.mem_append.1 hc with hc | hc
      · rw [rtreeDirCands] at hc
        obtain ⟨dd, _, hdd⟩ := List.mem_filterMap.1 hc
        have : c.dirs = [] := by
          repeat' split at hdd
          all_goals try cases hdd
          all_goals rfl
        rw [this]
        simpa using hpos
      · obtain ⟨f, _, rfl⟩ := List.mem_map.1 hc
        simpa using hpos
    · have := rtree_sub_depth_lt raw d hd [] tree c hc
      omega

/-- A negative depth limit is no limit: the recursive walk with any negative
limit equals the walk with `-1`. -/
theorem collect_sub_neg_unlimited (raw : Bool) (extra : List String) (d : Int) (hd : d < 0) :
    ∀ (dirs : List String) (l : List Entry),
      collect_sub raw extra d dirs l = collect_sub raw extra (-1) dirs l := by
  intro dirs l
  induction dirs, l using collect_sub.induct raw extra d with
  | case1 dirs => rw [collect_sub, collect_sub]
  | case2 dirs _ _ rest ih =>
    simp only [collect_sub]
    exact ih
  | case3 dirs n cs rest ih1 ih2 =>
    simp only [collect_sub]
    dsimp only at ih1 ⊢
    have h1 : ¬(0 ≤ d ∧ d ≤ ((dirs ++ [n]).length : Int)) := by omega
    have h2 : ¬(0 ≤ (-1 : Int) ∧ (-1 : Int) ≤ ((dirs ++ [n]).length : Int)) := by omega
    rw [ih2, if_neg h1, if_neg h2, ih1]

/-- A negative depth limit is no limit, from the root. -/
theorem collect_walk_neg_unlimited (raw : Bool) (extra : List String) (d : Int) (hd : d < 0)
    (tree : List Entry) :
    collect_walk raw extra d tree = collect_walk raw extra (-1) tree := by
  rw [collect_walk, collect_walk]
  have h1 : ¬(0 ≤ d ∧ d ≤ (0 : Int)) := by omega
  have h2 : ¬(0 ≤ (-1 : Int) ∧ (-1 : Int) ≤ (0 : Int)) := by omega
  rw [if_neg h1, if_neg h2, collect_sub_neg_unlimited raw extra d hd]

/-- C8: with a configured max depth d ≥ 0 no candidate is deeper than d (its
directory-chain length plus one, its component count, is at most d) — in the
shared scanner and in the tree visualizer's walk; with d = 1 only root-level
entries appear (empty directory chain); any negative depth value gives
exactly the unlimited (-1) walk. -/
theorem depth_limit_semantics (raw : Bool) (extra : List String) (tree : List Entry)
    (d : Int) :
    (0 ≤ d → ∀ c ∈ collect_walk raw extra d tree, (c.dirs.length : Int) + 1 ≤ d) ∧
    (0 ≤ d → ∀ c ∈ rtree_collect raw d tree, (c.dirs.length : Int) + 1 ≤ d) ∧
    (d = 1 → ∀ c ∈ collect_walk raw extra d tree, c.dirs = []) ∧
    (d = 1 → ∀ c ∈ rtree_collect raw d tree, c.dirs = []) ∧
    (d < 0 → collect_walk raw extra d tree = collect_walk raw extra (-1) tree) := by
  refine ⟨fun hd => collect_walk_depth_le raw extra d hd,
    fun hd => rtree_collect_depth_le raw d hd tree, ?_, ?_,
    fun hd => collect_walk_neg_unlimited raw extra d hd tree⟩
  · rintro rfl c hc
    have h := collect_walk_depth_le raw extra 1 (by omega) c hc
    have hlen : c.dirs.length = 0 := by omega
    exact List.length_eq_zero.1 hlen
  · rintro rfl c hc
    have h := rtree_collect_depth_le raw 1 (by omega) tree c hc
    have hlen : c.dirs.length = 0 := by omega
    exact List.length_eq_zero.1 hlen

/-- Witness for C8: at depth 1 the collected root file has an empty
directory chain, and depth -2 walks identically to depth -1. -/
theorem depth_limit_semantics_witness :
    (Cand.mk [] "y" false ∈
        collect_walk false [] 1 [.dir "a" [.file "x" {}], .file "y" {}] ∧
      (Cand.mk [] "y" false).dirs = []) ∧
    collect_walk false [] (-2) [.dir "a" [.file "x" {}], .file "y" {}] =
      collect_walk false [] (-1) [.dir "a" [.file "x" {}], .file "y" {}] := by
  have hmem : Cand.mk [] "y" false ∈
      collect_walk false [] 1 [.dir "a" [.file "x" {}], .file "y" {}] := by
    simp +decide [collect_walk, collect_sub, keptDirs, filesOf, dirsOf, should_eager_prune]
  refine ⟨⟨hmem, ?_⟩, ?_⟩
  · exact (depth_limit_semantics false [] [.dir "a" [.file "x" {}], .file "y" {}] 1).2.2.1
      rfl _ hmem
  · exact (depth_limit_semantics false [] [.dir "a" [.file "x" {}], .file "y" {}]
      (-2)).2.2.2.2 (by omega)

theorem mem_distinctAux (a : String) :
    ∀ (l seen : List String), a ∈ distinctAux l seen ↔ (a ∈ l ∧ a ∉ seen) := by
  intro l
  induction l with
  | nil => intro seen; simp [distinctAux]
  | cons x xs ih =>
    intro seen
    rw [distinctAux]
    split
    · rename_i hx
      rw [ih]
      have hxs : x ∈ seen := by simpa using hx
      constructor
      · rintro ⟨ha, hs⟩
        exact ⟨List.mem_cons_of_mem _ ha, hs⟩
      · rintro ⟨ha, hs⟩
        rcases List.mem_cons.1 ha with rfl | ha
        · exact absurd hxs hs
        · exact ⟨ha, hs⟩
    · rename_i hx
      have hxs : x ∉ seen := by simpa using hx
      constructor
      · intro h
        rcases List.mem_cons.1 h with rfl | h
        · exact ⟨List.mem_cons_self _ _, hxs⟩
        · rw [ih] at h
          obtain ⟨ha, hs⟩ := h
          exact ⟨List.mem_cons_of_mem _ ha, fun hmem => hs (List.mem_cons_of_mem _ hmem)⟩
      · rintro ⟨ha, hs⟩
        by_cases hax : a = x
        · subst hax
          exact List.mem_cons_self _ _
        · rcases List.mem_cons.1 ha with rfl | ha
          · exact absurd rfl hax
          · refine List.mem_cons_of_mem _ ((ih (x :: seen)).2 ⟨ha, ?_⟩)
            intro hmem
            rcases List.mem_cons.1 hmem with rfl | hmem
            · exact hax rfl
            · exact hs hmem

/-- Membership in the `set(...)` model is membership in the underlying
list. -/
theorem mem_distinctList (a : String) (l : List String) : a ∈ distinctList l ↔ a ∈ l := by
  rw [distinctList, mem_distinctAux]
  simp

/-- Every directory candidate emitted in non-raw mode is also emitted in raw
mode. -/
theorem rtreeDirCands_raw_superset (dirs : List String) (cs : List Entry) (c : Cand)
    (hc : c ∈ rtreeDirCands false dirs cs) : c ∈ rtreeDirCands true dirs cs := by
  rw [rtreeDirCands] at hc ⊢
  obtain ⟨dd, hdd, hf⟩ := List.mem_filterMap.1 hc
  refine List.mem_filterMap.2 ⟨dd, hdd, ?_⟩
  split at hf
  · simp at hf
  · split at hf
    · cases hf
    · rename_i hgit _
      rw [if_neg hgit]
      simpa using hf

/-- Raw-mode superset at the walk level, below the root. -/
theorem rtree_sub_raw_superset (d : Int) :
    ∀ (dirs : List String) (l : List Entry) (c : Cand), c ∈ rtree_sub false d dirs l →
      c ∈ rtree_sub true d dirs l := by
  intro dirs l
  induction dirs, l using rtree_sub.induct false d with
  | case1 dirs => intro c hc; rw [rtree_sub] at hc; cases hc
  | case2 dirs _ _ rest ih =>
    intro c hc
    rw [rtree_sub] at hc
    rw [rtree_sub]
    exact ih c hc
  | case3 dirs n cs rest ih1 ih2 =>
    intro c hc
    rw [rtree_sub] at hc
    rw [rtree_sub]
    rcases List.mem_append.1 hc with hc | hc
    · split at hc
      · rename_i hkeep
        dsimp only at hc
        have hkeept : rtreeKeepDir true n = true := by
          rw [rtreeKeepDir] at hkeep ⊢
          simp only [Bool.and_eq_true, decide_eq_true_eq] at hkeep ⊢
          exact ⟨hkeep.1, by simp⟩
        rw [if_pos hkeept]
        dsimp only
        refine List.mem_append.2 (Or.inl ?_)
        split at hc
        · cases hc
        · rename_i hguard
          rw [if_neg hguard]
          rcases List.mem_append.1 hc with hc | hc
          · rcases List.mem_append.1 hc with hc | hc
            · exact List.mem_append.2 (Or.inl (List.mem_append.2 (Or.inl
                (rtreeDirCands_raw_superset _ _ _ hc))))
            · exact List.mem_append.2 (Or.inl (List.mem_append.2 (Or.inr hc)))
          · exact List.mem_append.2 (Or.inr (ih1 c hc))
      · cases hc
    · exact List.mem_append.2 (Or.inr (ih2 c hc))

/-- Raw-mode superset at the walk level, from the root. -/
theorem rtree_collect_raw_superset (d : Int) (tree : List Entry) (c : Cand)
    (hc : c ∈ rtree_collect false d tree) : c ∈ rtree_collect true d tree := by
  rw [rtree_collect] at hc ⊢
  split at hc
  · cases hc
  · rename_i hguard
    rw [if_neg hguard]
    rcases List.mem_append.1 hc with hc | hc
    · rcases List.mem_append.1 hc with hc | hc
      · exact List.mem_append.2 (Or.inl (List.mem_append.2 (Or.inl
          (rtreeDirCands_raw_superset _ _ _ hc))))
      · exact List.mem_append.2 (Or.inl (List.mem_append.2 (Or.inr hc)))
    · exact List.mem_append.2 (Or.inr (rtree_sub_raw_superset d [] tree c hc))

/-- C7 counterexample input: a root holding only a `.gitignore` file,
scanned with max depth 0. -/
def c7Tree : List Entry := [.file ".gitignore" { lines := ["*.log"] }]

/-- C7 counterexample: with max depth 0 and a root `.gitignore` file, the
non-raw visible set contains the force-included `.gitignore` while the raw
visible set is empty — the raw-mode superset property fails. -/
theorem raw_superset_fails_at_depth_zero :
    rtree_visible c7Tree false 0 none = [".gitignore"] ∧
    rtree_visible c7Tree true 0 none = [] := by
  constructor <;>
    simp +decide [rtree_visible, rtree_check_ignore_input, rtree_collect, rtree_sub,
      rtreeDirCands, filesOf, dirsOf, c7Tree, is_git_repo, hasRootGitignoreFile,
      rtree_read_and_compile_gitignore, rootGitignoreLines, distinctList, distinctAux,
      List.insert]

/-- C7 (amended): the raw-mode visible set contains the non-raw visible set
for the same root and configuration, provided the depth limit is not 0 or
the root has no `.gitignore` file (with depth limit 0 and a root
`.gitignore`, the non-raw set is exactly `{.gitignore}` while the raw set is
empty). -/
theorem raw_superset_visible (tree : List Entry) (maxDepth : Int) (proc : Option ProcResult)
    (h : maxDepth ≠ 0 ∨ hasRootGitignoreFile tree = false) :
    ∀ p ∈ rtree_visible tree false maxDepth proc, p ∈ rtree_visible tree true maxDepth proc := by
  intro p hp
  have hraw : rtree_visible tree true maxDepth proc =
      rtree_check_ignore_input tree true maxDepth := by
    rw [rtree_visible]
    rfl
  rw [hraw, rtree_check_ignore_input, mem_distinctList]
  have htrans : ∀ q, q ∈ rtree_check_ignore_input tree false maxDepth →
      q ∈ (rtree_collect true maxDepth tree).map Cand.render := by
    intro q hq
    rw [rtree_check_ignore_input, mem_distinctList] at hq
    obtain ⟨c, hcmem, rfl⟩ := List.mem_map.1 hq
    exact List.mem_map.2 ⟨c, rtree_collect_raw_superset maxDepth tree c hcmem, rfl⟩
  rw [rtree_visible, if_neg Bool.false_ne_true] at hp
  dsimp only at hp
  split at hp
  · rename_i hroot
    rcases List.mem_insert_iff.1 hp with rfl | hp
    · have hd : maxDepth ≠ 0 := by
        rcases h with h | h
        · exact h
        · rw [hroot] at h
          cases h
      have hguard : ¬ (-1 < maxDepth ∧ maxDepth ≤ (0 : Int)) := by omega
      obtain ⟨f, hf, hfe⟩ := List.any_eq_true.1 hroot
      rw [rtree_collect, if_neg hguard]
      refine List.mem_map.2 ⟨Cand.mk [] f.1 false, ?_, ?_⟩
      · exact List.mem_append.2 (Or.inl (List.mem_append.2 (Or.inr
          (List.mem_map.2 ⟨f, hf, rfl⟩))))
      · have : f.1 = ".gitignore" := by simpa using hfe
        simp [Cand.render, relJoin, strJoin, this]
    · exact htrans _ (List.mem_filter.1 hp).1
  · exact htrans _ (List.mem_filter.1 hp).1

/-- Witness for C7 (amended): concrete tree, depth -1; the non-raw visible
`src/a.py` is also raw-visible. -/
theorem raw_superset_visible_witness :
    "src/a.py" ∈ rtree_visible [.dir "src" [.file "a.py" {}]] false (-1) none ∧
    "src/a.py" ∈ rtree_visible [.dir "src" [.file "a.py" {}]] true (-1) none := by
  have hmem : "src/a.py" ∈ rtree_visible [.dir "src" [.file "a.py" {}]] false (-1) none := by
    simp +decide [rtree_visible, rtree_check_ignore_input, rtree_collect, rtree_sub,
      rtreeDirCands, rtreeKeepDir, filesOf, dirsOf, is_git_repo, hasRootGitignoreFile,
      rtree_read_and_compile_gitignore, rootGitignoreLines, distinctList, distinctAux,
      Cand.render, relJoin, strJoin]
  exact ⟨hmem, raw_superset_visible [.dir "src" [.file "a.py" {}]] (-1) none
    (Or.inl (by omega)) "src/a.py" hmem⟩

/-- C10 failing input: a repository containing a (POSIX-legal) file whose
name contains backslash-dot-dot sequences. -/
def c10Tree : List Entry := [.file "a\\..\\..\\..\\b" {}]

/-- C10: the zip writer's traversal check passes this file (its `normpath`
is a single component that neither starts with `..` nor is absolute), but
the written archive entry name — built from the ORIGINAL relative path with
backslashes replaced by `/` — resolves above the archive root. -/
theorem gitmig_zip_escapes_archive_root :
    gitmig_files_to_copy_pairs {} c10Tree none = [("a\\..\\..\\..\\b", 0)] ∧
    zip_written_entries "repo" (gitmig_files_to_copy_pairs {} c10Tree none) =
      ["repo/a/../../../b"] ∧
    resolveEntryPath "repo/a/../../../b" = none := by
  have h1 : gitmig_files_to_copy_pairs {} c10Tree none = [("a\\..\\..\\..\\b", 0)] := by
    simp +decide [gitmig_files_to_copy_pairs, gitmig_files_to_copy, gitmig_ignored,
      gitmig_walk, gitmig_sub, filesOf, dirsOf, c10Tree, is_git_repo, should_exclude_file,
      GitMigConfig.exclude_files, EXCLUDE_FILE_PATTERNS, should_preserve, PRESERVE_PATTERNS,
      PathInfo.rel, relJoin, strJoin]
  refine ⟨h1, ?_, by decide⟩
  rw [h1]
  decide
